import Mathlib

/-!
Verification development for the title-conflict detection engine
(`title_engine.py` and `main.py`).

Strings are modelled as `List Char` (`Str`).  The external libraries are
modelled as follows:

* `unidecode` (ASCII romanization) is an opaque parameter `rom : Str → Str`
  of every definition that normalizes input; the only fact ever assumed
  about it is that it fixes already-normalized ASCII strings.
* `jellyfish.metaphone` is an opaque parameter `mph : Str → Str`.
* `rapidfuzz.fuzz.ratio` is implemented from its documented semantics:
  the Indel-based similarity `200·lcs(a,b)/(|a|+|b|)` scaled to `[0,100]`
  (with `100` for two empty strings).

Python `set`s are modelled as duplicate-free lists in insertion order
(`setInsert` appends a new element at the end); `next(iter(s))` is the
head of that list, and iteration over a set is iteration over the list.
This is one deterministic resolution of CPython's unspecified set order.
Bounded `lru_cache` memoization is semantically the identity and is not
modelled.  Recursions that are not structural in the source are given a
`fuel` argument always called with enough fuel (the fuel never runs out
on the actual call paths, which shorten their list argument each step).
-/

abbrev Str := List Char

def s2l (s : String) : Str := s.data

/-- Single-quote character (code point 39), used in reason messages. -/
def qc : Char := Char.ofNat 39

/-- ASCII whitespace, the characters matched by Python's regex `\s`
on the ASCII strings this pipeline operates on. -/
def isPySpace (c : Char) : Bool :=
  c = ' ' || c = '\t' || c = '\n' || c = '\x0d' || c = '\x0b' || c = '\x0c'

/-- A character in `[a-z0-9]`. -/
def isLowerAlnum (c : Char) : Bool :=
  (97 ≤ c.toNat && c.toNat ≤ 122) || (48 ≤ c.toNat && c.toNat ≤ 57)

/-- ASCII letter, modelling Python's `str.isalpha` on ASCII data. -/
def isAsciiAlpha (c : Char) : Bool :=
  (65 ≤ c.toNat && c.toNat ≤ 90) || (97 ≤ c.toNat && c.toNat ≤ 122)

/-- Python's `str.lower`, per ASCII character. -/
def pyLowerChar (c : Char) : Char :=
  if 65 ≤ c.toNat && c.toNat ≤ 90 then Char.ofNat (c.toNat + 32) else c

/-- Python's `str.upper`, per ASCII character. -/
def pyUpperChar (c : Char) : Char :=
  if 97 ≤ c.toNat && c.toNat ≤ 122 then Char.ofNat (c.toNat - 32) else c

/-- `LEET_MAP = str.maketrans("0134578@!", "oieastbba")`. -/
def leetTr (c : Char) : Char :=
  if c = '0' then 'o'
  else if c = '1' then 'i'
  else if c = '3' then 'e'
  else if c = '4' then 'a'
  else if c = '5' then 's'
  else if c = '7' then 't'
  else if c = '8' then 'b'
  else if c = '@' then 'a'
  else if c = '!' then 'b'
  else c

/-- `NON_ALNUM_RE.sub(" ", s)` for `NON_ALNUM_RE = [^a-z0-9\s]`:
each character outside `[a-z0-9]` that is not whitespace becomes one space. -/
def nonAlnumSub (s : Str) : Str :=
  s.map fun c => if isLowerAlnum c || isPySpace c then c else ' '

/-- `WHITESPACE_RE.sub(" ", s)` for `WHITESPACE_RE = \s+`: every maximal
run of whitespace becomes a single space. -/
def collapseWS : Str → Str
  | [] => []
  | [c] => if isPySpace c then [' '] else [c]
  | c :: d :: rest =>
      if isPySpace c && isPySpace d then collapseWS (d :: rest)
      else (if isPySpace c then ' ' else c) :: collapseWS (d :: rest)

/-- Python's `str.strip()`: drop leading and trailing whitespace. -/
def stripWS (s : Str) : Str :=
  ((s.dropWhile isPySpace).reverse.dropWhile isPySpace).reverse

/-- `_sanitize_cached`: romanize, lowercase, de-leet, replace non-alnum
by spaces, collapse whitespace, strip. -/
def _sanitize_cached (rom : Str → Str) (title : Str) : Str :=
  stripWS (collapseWS (nonAlnumSub ((rom title).map (fun c => leetTr (pyLowerChar c)))))

/-- `sanitize_input` (the `title or ""` guard is invisible here:
absent input is the empty list). -/
def sanitize_input (rom : Str → Str) (title : Str) : Str :=
  _sanitize_cached rom title

/-- Python `str.split()` on whitespace, dropping empty tokens.
The accumulator holds the current token reversed. -/
def pySplitAux : Str → Str → List Str
  | [], acc => if acc = [] then [] else [acc.reverse]
  | c :: cs, acc =>
      if isPySpace c then
        if acc = [] then pySplitAux cs [] else acc.reverse :: pySplitAux cs []
      else pySplitAux cs (c :: acc)

def pySplit (s : Str) : List Str := pySplitAux s []

/-- `" ".join(words)`. -/
def joinSpaces (words : List Str) : Str := List.intercalate [' '] words

/-- Lexicographic comparison of strings by code point, as Python's `<=`. -/
def lexLe : Str → Str → Bool
  | [], _ => true
  | _ :: _, [] => false
  | x :: xs, y :: ys => if x = y then lexLe xs ys else decide (x < y)

def insertLe (le : α → α → Bool) (a : α) : List α → List α
  | [] => [a]
  | b :: bs => if le a b then a :: b :: bs else b :: insertLe le a bs

/-- Insertion sort with a boolean comparison (models Python `sorted`). -/
def sortLe (le : α → α → Bool) : List α → List α
  | [] => []
  | a :: as => insertLe le a (sortLe le as)

/-- Keep the first occurrence of each element (models iterating a
Python set/frozenset built from a list, in insertion order). -/
def dedupFirst [DecidableEq α] : List α → List α
  | [] => []
  | a :: l => a :: (dedupFirst l).filter (· ≠ a)

/-- Python set `add`: append if not already present (insertion order). -/
def setInsert [DecidableEq α] (a : α) (l : List α) : List α :=
  if a ∈ l then l else l ++ [a]

/-- `_compact_ngrams_cached`: the set of 3-character windows of a compact
string (the whole string when its length is at most 3, nothing when empty). -/
def _compact_ngrams_cached (compact : Str) (n : Nat) : List Str :=
  if compact = [] then []
  else if compact.length ≤ n then [compact]
  else dedupFirst ((List.range (compact.length - n + 1)).map
    fun i => (compact.drop i).take n)

/-- `char_ngrams(text, 3)`: trigrams of the space-stripped text. -/
def char_ngrams (text : Str) : List Str :=
  _compact_ngrams_cached (text.filter (· ≠ ' ')) 3

/-- `make_acronym`: first character of each non-empty word. -/
def make_acronym (words : List Str) : Str :=
  words.filterMap List.head?

/-- `" ".join(sorted(words))` for the words of a normalized title. -/
def sortedKey (normalized : Str) : Str :=
  joinSpaces (sortLe lexLe (pySplit normalized))

/-- Longest common subsequence length with explicit fuel (the recursion of
the textbook LCS is not structural in either argument alone); any fuel at
least `a.length + b.length` is enough. -/
def lcsFuel : Nat → Str → Str → Nat
  | 0, _, _ => 0
  | _ + 1, [], _ => 0
  | _ + 1, _ :: _, [] => 0
  | fuel + 1, a :: as, b :: bs =>
      if a = b then 1 + lcsFuel fuel as bs
      else max (lcsFuel fuel (a :: as) bs) (lcsFuel fuel as (b :: bs))

def lcsLen (a b : Str) : Nat := lcsFuel (a.length + b.length) a b

/-- `rapidfuzz.fuzz.ratio`, from its documented Indel semantics:
`100·(1 − indel(a,b)/(|a|+|b|)) = 200·lcs(a,b)/(|a|+|b|)`, and `100`
when both strings are empty.  Scores are modelled as rationals. -/
def fuzz_ratio (a b : Str) : ℚ :=
  if a.length + b.length = 0 then 100
  else (200 * lcsLen a b : ℚ) / (a.length + b.length)

/-- Decimal digits of a natural number. -/
def natDigits (n : Nat) : Str := Nat.toDigits 10 n

/-- Python's `"{:.1f}".format(q)` for the nonnegative scores that reach it;
the tie at half a tenth is modelled as rounding up (the claims never
depend on the rendered digits). -/
def fmt1 (q : ℚ) : Str :=
  let n : Int := ⌊q * 10 + 1 / 2⌋
  if n < 0 then '-' :: (natDigits ((-n).toNat / 10) ++ ['.'] ++ natDigits ((-n).toNat % 10))
  else natDigits (n.toNat / 10) ++ ['.'] ++ natDigits (n.toNat % 10)

def DISALLOWED_WORDS : List Str :=
  [s2l "police", s2l "crime", s2l "corruption", s2l "cbi", s2l "cid", s2l "army"]

/-- `DISALLOWED_WORDS` in sorted order; filtering this list by membership
in the title's words equals Python's `sorted(words_set ∩ DISALLOWED_WORDS)`. -/
def DISALLOWED_WORDS_SORTED : List Str :=
  [s2l "army", s2l "cbi", s2l "cid", s2l "corruption", s2l "crime", s2l "police"]

/-- `PREFIXES_SUFFIXES` in the source. -/
def AFFIX_WORDS : List Str :=
  [s2l "the", s2l "india", s2l "samachar", s2l "news"]

def ADVANCED_PERIODICITY : List Str :=
  [s2l "daily", s2l "weekly", s2l "monthly", s2l "fortnightly", s2l "annual",
   s2l "dainik", s2l "saptahik", s2l "masik", s2l "varshik", s2l "pratidin",
   s2l "rozana"]

/-- Python's `str.title()` (ASCII model): uppercase a letter that follows a
non-letter, lowercase the rest.  The boolean is "previous char was a letter". -/
def pyTitleAux : Bool → Str → Str
  | _, [] => []
  | prevAlpha, c :: cs =>
      (if isAsciiAlpha c then (if prevAlpha then pyLowerChar c else pyUpperChar c) else c)
        :: pyTitleAux (isAsciiAlpha c) cs

def pyTitle (s : Str) : Str := pyTitleAux false s

/-- The in-memory multi-index of `title_engine.py`.  `defaultdict(set)`
fields are total functions into lists-as-sets (default `[]`). -/
structure TitleIndex where
  existing_titles : List Str
  canonical_titles : Str → List Str
  phonetic_map : Str → List Str
  sorted_titles_map : Str → List Str
  acronym_map : Str → List Str
  token_index : Str → List Str
  trigram_index : Str → List Str
  first_char_index : Char → List Str

attribute [ext] TitleIndex

def TitleIndex.empty : TitleIndex :=
  { existing_titles := []
    canonical_titles := fun _ => []
    phonetic_map := fun _ => []
    sorted_titles_map := fun _ => []
    acronym_map := fun _ => []
    token_index := fun _ => []
    trigram_index := fun _ => []
    first_char_index := fun _ => [] }

/-- `TitleIndex.clear`. -/
def TitleIndex.clear (_ : TitleIndex) : TitleIndex := TitleIndex.empty

/-- `TitleIndex.add_title`.  Loops that insert the normalized title into
every bucket keyed by a member of a set (`set(words)`, the trigram set)
are rendered as pointwise updates of the bucket function; dropping the
`set(...)` wrapper is sound because `setInsert` is idempotent. -/
def TitleIndex.add_title (rom mph : Str → Str) (idx : TitleIndex) (raw_title : Str) :
    TitleIndex :=
  let normalized := sanitize_input rom raw_title
  if normalized = [] then idx
  else
    let words := pySplit normalized
    { existing_titles := setInsert normalized idx.existing_titles
      canonical_titles := fun k =>
        if k = normalized then setInsert (stripWS raw_title) (idx.canonical_titles k)
        else idx.canonical_titles k
      phonetic_map := fun k =>
        if mph normalized ≠ [] ∧ k = mph normalized then
          setInsert normalized (idx.phonetic_map k)
        else idx.phonetic_map k
      sorted_titles_map := fun k =>
        if 1 < words.length ∧ k = sortedKey normalized then
          setInsert normalized (idx.sorted_titles_map k)
        else idx.sorted_titles_map k
      acronym_map := fun k =>
        if 1 < words.length ∧ make_acronym words ≠ [] ∧ k = make_acronym words then
          setInsert normalized (idx.acronym_map k)
        else idx.acronym_map k
      token_index := fun k =>
        if k ∈ words then setInsert normalized (idx.token_index k)
        else idx.token_index k
      trigram_index := fun k =>
        if k ∈ char_ngrams normalized then setInsert normalized (idx.trigram_index k)
        else idx.trigram_index k
      first_char_index := fun k =>
        if k = normalized.headD ' ' then setInsert normalized (idx.first_char_index k)
        else idx.first_char_index k }

/-- `TitleIndex.extend`. -/
def TitleIndex.extend (rom mph : Str → Str) (idx : TitleIndex) (titles : List Str) :
    TitleIndex :=
  titles.foldl (TitleIndex.add_title rom mph) idx

/-- `TitleIndex.display_title`: smallest canonical raw form, or the
title-cased normalized title when none is recorded. -/
def TitleIndex.display_title (idx : TitleIndex) (normalized_title : Str) : Str :=
  match sortLe lexLe (idx.canonical_titles normalized_title) with
  | [] => pyTitle normalized_title
  | c :: _ => c

/-- Counter weight of `_candidate_titles` for one candidate: 3 per shared
distinct token, 1 per shared trigram, 1 for the first-character bucket
within length difference 8. -/
def candWeight (idx : TitleIndex) (clean_title : Str) (c : Str) : Nat :=
  3 * ((dedupFirst (pySplit clean_title)).filter
        (fun t => c ∈ idx.token_index t)).length
  + ((char_ngrams clean_title).filter (fun g => c ∈ idx.trigram_index g)).length
  + (match clean_title with
     | [] => 0
     | ch :: _ =>
        if c ∈ idx.first_char_index ch ∧
            ((c.length : Int) - (clean_title.length : Int)).natAbs ≤ 8 then 1
        else 0)

/-- The titles the counter of `_candidate_titles` ever touches, in the
order the loops first reach them. -/
def candTouched (idx : TitleIndex) (clean_title : Str) : List Str :=
  dedupFirst
    ((dedupFirst (pySplit clean_title)).flatMap (fun t => idx.token_index t)
     ++ (char_ngrams clean_title).flatMap (fun g => idx.trigram_index g)
     ++ (match clean_title with
         | [] => []
         | ch :: _ =>
            (idx.first_char_index ch).filter
              (fun c => ((c.length : Int) - (clean_title.length : Int)).natAbs ≤ 8)))

/-- `TitleIndex._candidate_titles`: the 700 touched titles with the
largest counter weight.  `Counter.most_common` orders by weight descending
with ties by first-touch order; the tie order is modelled by sorting the
first-touch list with a comparison that prefers larger weight. -/
def TitleIndex._candidate_titles (idx : TitleIndex) (clean_title : Str) : List Str :=
  (sortLe (fun a b => candWeight idx clean_title b < candWeight idx clean_title a)
      (candTouched idx clean_title)).take 700

/-- The proper splits of a list: `(pre, suf)` with `pre ≠ []` and
`pre ++ suf = ws`, in order of increasing `pre` length. -/
def splitsOf : List Str → List (List Str × List Str)
  | [] => []
  | w :: ws => ([w], ws) :: (splitsOf ws).map (fun p => (w :: p.1, p.2))

theorem splitsOf_spec : ∀ (ws : List Str) (pr : List Str × List Str),
    pr ∈ splitsOf ws → pr.1 ≠ [] ∧ pr.1 ++ pr.2 = ws ∧ pr.2.length < ws.length := by
  intro ws
  induction ws with
  | nil => intro pr h; simp [splitsOf] at h
  | cons w ws ih =>
      intro pr h
      simp only [splitsOf, List.mem_cons, List.mem_map] at h
      rcases h with h | ⟨q, hq, rfl⟩
      · subst h; simp
      · obtain ⟨h1, h2, h3⟩ := ih q hq
        refine ⟨by simp, by simp [h2], by simp [Nat.lt_succ_of_lt h3]⟩

/-- The recursion of `segment` in `_detect_combination`, with fuel.
`segsFuel fuel ws` lists every way to cut `ws` into contiguous spans
whose space-joined phrases are existing titles different from the full
input, in the depth-first order of the source (split point ascending).
Any fuel at least `ws.length` is enough. -/
def segsFuel (existing : List Str) (clean_title : Str) : Nat → List Str → List (List Str)
  | 0, _ => []
  | fuel + 1, ws =>
      (splitsOf ws).flatMap fun pr =>
        let phrase := joinSpaces pr.1
        if phrase ∈ existing ∧ phrase ≠ clean_title then
          if pr.2 = [] then [[phrase]]
          else (segsFuel existing clean_title fuel pr.2).map (phrase :: ·)
        else []

/-- `TitleIndex._detect_combination`: first grouping with at least two
spans, reported by canonical display titles. -/
def TitleIndex._detect_combination (idx : TitleIndex) (clean_title : Str) :
    Option (List Str) :=
  let words := pySplit clean_title
  if words.length < 2 then none
  else
    ((segsFuel idx.existing_titles clean_title words.length words).find?
        (fun g => 2 ≤ g.length)).map
      (List.map idx.display_title)

/-- `TitleIndex._detect_periodicity_extension`. -/
def TitleIndex._detect_periodicity_extension (idx : TitleIndex) (clean_title : Str) :
    Option Str :=
  let words := pySplit clean_title
  if words.length ≤ 1 then none
  else
    let stripped_words := words.filter (fun w => w ∉ ADVANCED_PERIODICITY)
    if stripped_words.length = words.length then none
    else
      let base_title := joinSpaces stripped_words
      if base_title ≠ [] ∧ base_title ∈ idx.existing_titles ∧ base_title ≠ clean_title
      then some (idx.display_title base_title)
      else none

def emptyReason : Str := s2l "Title cannot be empty after normalization."

def exactReason (d : Str) : Str :=
  s2l "Exact match found with existing title " ++ [qc] ++ d ++ [qc, '.']

def wordOrderReason (d : Str) : Str :=
  s2l "Word-order variation matches existing title " ++ [qc] ++ d ++ [qc, '.']

def acronymReason (d : Str) : Str :=
  s2l "Acronym collision with existing title " ++ [qc] ++ d ++ [qc, '.']

def phoneticReason (d : Str) (ratio : ℚ) : Str :=
  s2l "Phonetic conflict with " ++ [qc] ++ d ++ [qc]
    ++ s2l " (lexical similarity " ++ fmt1 ratio ++ s2l "%)."

def periodicityReason (d : Str) : Str :=
  s2l "Periodicity modifier added to existing title " ++ [qc] ++ d ++ [qc, '.']

def combReason (names : List Str) : Str :=
  s2l "Title appears to combine existing titles: "
    ++ List.intercalate (s2l " + ") names ++ ['.']

def spellingReason (d : Str) (score : ℚ) : Str :=
  s2l "Spelling/transliteration variation too close to existing title "
    ++ [qc] ++ d ++ [qc] ++ s2l " (" ++ fmt1 score ++ s2l "% lexical match)."

/-- The best-candidate scan of rule 8: fold over the candidate list,
skipping the query itself, keeping the first strict improvement. -/
def bestCandidate (clean_title : Str) (cands : List Str) : ℚ × Option Str :=
  cands.foldl
    (fun acc candidate =>
      if candidate = clean_title then acc
      else
        let score := fuzz_ratio clean_title candidate
        if acc.1 < score then (score, some candidate) else acc)
    ((0 : ℚ), (none : Option Str))

/-- `TitleIndex.detect_lexical_conflicts`: the ordered rule chain.
Set iteration (`next(iter(...))`, the phonetic `for` loop) follows the
bucket lists' insertion order. -/
def TitleIndex.detect_lexical_conflicts (rom mph : Str → Str) (idx : TitleIndex)
    (raw_title : Str) (precleaned : Bool) : List Str × ℚ :=
  let clean_title := if precleaned then raw_title else sanitize_input rom raw_title
  if clean_title = [] then ([emptyReason], 100)
  else
    let words := pySplit clean_title
    if clean_title ∈ idx.existing_titles then
      ([exactReason (idx.display_title clean_title)], 100)
    else if 1 < words.length ∧ idx.sorted_titles_map (sortedKey clean_title) ≠ [] then
      ([wordOrderReason
          (idx.display_title ((idx.sorted_titles_map (sortedKey clean_title)).headD []))],
       99)
    else if clean_title.length ≤ 8 ∧ clean_title.all isAsciiAlpha ∧
        idx.acronym_map clean_title ≠ [] then
      ([acronymReason (idx.display_title ((idx.acronym_map clean_title).headD []))], 98)
    else
      match
        if mph clean_title = [] then none
        else (idx.phonetic_map (mph clean_title)).find?
          (fun m => decide (m ≠ clean_title) && decide ((60 : ℚ) ≤ fuzz_ratio clean_title m))
      with
      | some matched =>
          ([phoneticReason (idx.display_title matched) (fuzz_ratio clean_title matched)],
           max 92 (fuzz_ratio clean_title matched))
      | none =>
        match idx._detect_periodicity_extension clean_title with
        | some periodic_base => ([periodicityReason periodic_base], 96)
        | none =>
          match idx._detect_combination clean_title with
          | some combination => ([combReason combination], 94)
          | none =>
            let best := bestCandidate clean_title (idx._candidate_titles clean_title)
            match best.2 with
            | some best_match =>
                if best_match ≠ [] ∧ 80 ≤ best.1 then
                  ([spellingReason (idx.display_title best_match) best.1], best.1)
                else ([], best.1)
            | none => ([], best.1)

def disallowedReason (dis : List Str) : Str :=
  s2l "Contains disallowed words: "
    ++ List.intercalate (s2l ", ") (dis.map (List.map pyUpperChar)) ++ ['.']

def periodicityGuidelineReason (d : Str) : Str :=
  s2l "Uses periodicity term to modify an existing title ("
    ++ [qc] ++ d ++ [qc] ++ s2l ")."

def affixHeadReason (w d : Str) : Str :=
  s2l "Disallowed prefix " ++ [qc] ++ w ++ [qc]
    ++ s2l " creates conflict with existing title " ++ [qc] ++ d ++ [qc, '.']

def affixTailReason (w d : Str) : Str :=
  s2l "Disallowed suffix " ++ [qc] ++ w ++ [qc]
    ++ s2l " creates conflict with existing title " ++ [qc] ++ d ++ [qc, '.']

/-- `enforce_guidelines`.  `sorted(words_set ∩ DISALLOWED_WORDS)` is
computed by filtering the pre-sorted disallowed list; the truthiness
guards `... and index` become a `match` on the optional index. -/
def enforce_guidelines (rom : Str → Str) (title : Str) (index : Option TitleIndex)
    (precleaned : Bool) : List Str :=
  let clean_title := if precleaned then title else sanitize_input rom title
  let words := pySplit clean_title
  if words = [] then [s2l "Title cannot be empty."]
  else
    let disallowed := DISALLOWED_WORDS_SORTED.filter (· ∈ words)
    let r1 : List Str := if disallowed = [] then [] else [disallowedReason disallowed]
    let r2 : List Str :=
      match index with
      | none => []
      | some idx =>
          if words.filter (· ∈ ADVANCED_PERIODICITY) ≠ [] then
            let stripped := words.filter (· ∉ ADVANCED_PERIODICITY)
            let base := joinSpaces stripped
            if base ≠ [] ∧ base ∈ idx.existing_titles ∧ base ≠ clean_title then
              [periodicityGuidelineReason (idx.display_title base)]
            else []
          else []
    let r3 : List Str :=
      match index with
      | none => []
      | some idx =>
          if words.headD [] ∈ AFFIX_WORDS then
            let base := joinSpaces (words.drop 1)
            if base ≠ [] ∧ base ∈ idx.existing_titles then
              [affixHeadReason (words.headD []) (idx.display_title base)]
            else []
          else []
    let r4 : List Str :=
      match index with
      | none => []
      | some idx =>
          if words.getLastD [] ∈ AFFIX_WORDS then
            let base := joinSpaces words.dropLast
            if base ≠ [] ∧ base ∈ idx.existing_titles then
              [affixTailReason (words.getLastD []) (idx.display_title base)]
            else []
          else []
    r1 ++ r2 ++ r3 ++ r4

/-- The verdict record returned by `main.py`. -/
structure VerificationResponse where
  status : Str
  verification_probability : ℚ
  similarity_percentage : ℚ
  is_rejected : Bool
  rejection_reasons : List Str
  feedback : Str
deriving DecidableEq

/-- Python `round(x, 2)` on the nonnegative scores that reach it; the
half tie is modelled as rounding up (the claims use only monotonicity
and integer fixed points, which hold for either tie-break). -/
def round2 (q : ℚ) : ℚ := (⌊q * 100 + 1 / 2⌋ : ℚ) / 100

def normalizedNote (normalized : Str) : Str :=
  s2l "Input was normalized to " ++ [qc] ++ normalized ++ [qc]
    ++ s2l " before matching."

/-- `check_combinations_and_phonetics`: detect on the pre-normalized
title, prepending a note when normalization changed the input. -/
def check_combinations_and_phonetics (rom mph : Str → Str) (idx : TitleIndex)
    (title : Str) : List Str × ℚ × Str :=
  let normalized := sanitize_input rom title
  let rs := idx.detect_lexical_conflicts rom mph normalized true
  let reasons :=
    if rs.1 ≠ [] ∧ normalized ≠ [] ∧ normalized ≠ stripWS (title.map pyLowerChar) then
      normalizedNote normalized :: rs.1
    else rs.1
  (reasons, rs.2, normalized)

def meaningLabel : Str := s2l "Similarity in meaning (semantic conflict)"
def soundLabel : Str := s2l "Similarity in sound (phonetic conflict)"
def spellingLabel : Str := s2l "Similarity in spelling (lexical conflict)"

/-- `_build_ensemble_reason`: the dominant weighted dimension names the
reason; Python's `max` keeps the earliest of tied keys. -/
def _build_ensemble_reason (matched_title : Str) (total_similarity semantic_score
    phonetic_score fuzzy_score : ℚ) : Str :=
  let v1 := (40 : ℚ) / 100 * semantic_score
  let l2 := if (35 : ℚ) / 100 * phonetic_score > v1 then soundLabel else meaningLabel
  let v2 := max v1 ((35 : ℚ) / 100 * phonetic_score)
  let primary := if (25 : ℚ) / 100 * fuzzy_score > v2 then spellingLabel else l2
  primary ++ s2l " with existing title " ++ [qc] ++ matched_title ++ [qc]
    ++ s2l " (" ++ fmt1 total_similarity ++ s2l "% total similarity)."

/-- The semantic loop of `cached_verification_logic` over the RPC matches:
dedup by raw matched title, skip empty normalizations, accumulate the
highest weighted total, stop at the first total reaching the threshold. -/
def ensembleLoop (rom mph : Str → Str) (ensTh : ℚ) (clean_title : Str) :
    List (Str × ℚ) → List Str → ℚ → List Str → ℚ × List Str
  | [], _, highest, reasons => (highest, reasons)
  | (matched_title, similarity) :: rest, seen, highest, reasons =>
      if matched_title = [] ∨ matched_title ∈ seen then
        ensembleLoop rom mph ensTh clean_title rest seen highest reasons
      else
        let seen' := setInsert matched_title seen
        let clean_match := sanitize_input rom matched_title
        if clean_match = [] then
          ensembleLoop rom mph ensTh clean_title rest seen' highest reasons
        else
          let semantic_score := max 0 (min 100 (similarity * 100))
          let phonetic_score : ℚ :=
            if mph clean_title ≠ [] ∧ mph clean_title = mph clean_match then 100 else 0
          let fuzzy_score := fuzz_ratio clean_title clean_match
          let total := (40 : ℚ) / 100 * semantic_score
            + (35 : ℚ) / 100 * phonetic_score + (25 : ℚ) / 100 * fuzzy_score
          let highest' := max highest total
          if ensTh ≤ total then
            (highest',
             reasons ++ [_build_ensemble_reason matched_title total semantic_score
                phonetic_score fuzzy_score])
          else ensembleLoop rom mph ensTh clean_title rest seen' highest' reasons

def thresholdReason (lex ensTh : ℚ) : Str :=
  s2l "Lexical similarity is already above rejection threshold ("
    ++ fmt1 lex ++ s2l "% >= " ++ fmt1 ensTh ++ s2l "%)."

def genericEnsembleReason : Str :=
  s2l "High conceptual similarity detected with existing registered titles."

/-- `cached_verification_logic`.  The semantic stage (embedding plus
vector RPC) is abstracted by `rpc`: `none` models any exception in the
`try` block (degrade to lexical-only), `some matches` the returned rows
as `(title, cosine similarity)` pairs. -/
def cached_verification_logic (rom mph : Str → Str) (lexTh ensTh : ℚ)
    (idx : TitleIndex) (title : Str) (_language : Str)
    (rpc : Option (List (Str × ℚ))) : VerificationResponse :=
  let ch := check_combinations_and_phonetics rom mph idx title
  let lexical_rejections := ch.1
  let lexical_score := ch.2.1
  let clean_title := ch.2.2
  if lexTh ≤ lexical_score then
    { status := s2l "rejected"
      verification_probability := round2 (max 0 (100 - lexical_score))
      similarity_percentage := round2 lexical_score
      is_rejected := true
      rejection_reasons := lexical_rejections
      feedback := s2l "Title is too close to an existing title by lexical/phonetic checks." }
  else
    let rule_rejections := enforce_guidelines rom clean_title (some idx) true
    if rule_rejections ≠ [] then
      { status := s2l "rejected"
        verification_probability := 0
        similarity_percentage := 100
        is_rejected := true
        rejection_reasons := rule_rejections
        feedback := s2l "Title violates PRGI naming guidelines." }
    else if ensTh ≤ lexical_score then
      { status := s2l "rejected"
        verification_probability := round2 (max 0 (100 - lexical_score))
        similarity_percentage := round2 lexical_score
        is_rejected := true
        rejection_reasons :=
          if lexical_rejections = [] then [thresholdReason lexical_score ensTh]
          else lexical_rejections
        feedback := s2l "Rejected by lexical scoring without semantic stage." }
    else
      let ens :=
        match rpc with
        | none => ((0 : ℚ), ([] : List Str))
        | some rows => ensembleLoop rom mph ensTh clean_title rows [] 0 []
      let final_similarity := max lexical_score ens.1
      if ensTh ≤ final_similarity then
        let reasons := dedupFirst (lexical_rejections ++ ens.2)
        { status := s2l "rejected"
          verification_probability := round2 (max 0 (100 - final_similarity))
          similarity_percentage := round2 final_similarity
          is_rejected := true
          rejection_reasons := if reasons = [] then [genericEnsembleReason] else reasons
          feedback := s2l "Rejected by weighted lexical, phonetic, and semantic scoring." }
      else
        { status := s2l "success"
          verification_probability := round2 (max 0 (100 - final_similarity))
          similarity_percentage := round2 final_similarity
          is_rejected := false
          rejection_reasons := []
          feedback := s2l "Title passed automated validation checks." }

/-- `submit_application`: HTTP status code and resulting index state.
`storeOk` models the store insert (`false` = the insert raises). -/
def submit_application (rom mph : Str → Str) (idx : TitleIndex) (title : Str)
    (storeOk : Bool) : Nat × TitleIndex :=
  let clean_title := sanitize_input rom title
  if clean_title = [] then (400, idx)
  else if clean_title ∈ idx.existing_titles then (409, idx)
  else if storeOk = false then (500, idx)
  else (200, idx.add_title rom mph title)

theorem mem_setInsert [DecidableEq α] (a b : α) (l : List α) :
    b ∈ setInsert a l ↔ b = a ∨ b ∈ l := by
  unfold setInsert
  split
  · next h => exact ⟨fun hb => Or.inr hb, fun hb => hb.elim (fun e => e ▸ h) id⟩
  · simp [or_comm]

theorem mem_setInsert_self [DecidableEq α] (a : α) (l : List α) :
    a ∈ setInsert a l := (mem_setInsert a a l).mpr (Or.inl rfl)

theorem mem_setInsert_of_mem [DecidableEq α] (a : α) {b : α} {l : List α}
    (h : b ∈ l) : b ∈ setInsert a l := (mem_setInsert a b l).mpr (Or.inr h)

theorem setInsert_ne_nil [DecidableEq α] (a : α) (l : List α) :
    setInsert a l ≠ [] := by
  unfold setInsert
  split
  · next h => exact List.ne_nil_of_mem h
  · simp

theorem setInsert_idem [DecidableEq α] (a : α) (l : List α) :
    setInsert a (setInsert a l) = setInsert a l := by
  unfold setInsert
  split
  · next h => simp [h]
  · simp

/-- Claim C8: a submission whose normalized title is non-empty and new is
rejected with 500 when the store write fails, an empty normalized title
yields 400 and an existing one 409, and in all three cases the in-memory
index is unchanged. -/
theorem c8_submit_application_error_paths (rom mph : Str → Str) (idx : TitleIndex)
    (title : Str) (storeOk : Bool) :
    (sanitize_input rom title = [] →
       submit_application rom mph idx title storeOk = (400, idx)) ∧
    (sanitize_input rom title ≠ [] → sanitize_input rom title ∈ idx.existing_titles →
       submit_application rom mph idx title storeOk = (409, idx)) ∧
    (sanitize_input rom title ≠ [] → sanitize_input rom title ∉ idx.existing_titles →
       storeOk = false → submit_application rom mph idx title storeOk = (500, idx)) := by
  refine ⟨fun h => ?_, fun h1 h2 => ?_, fun h1 h2 h3 => ?_⟩ <;>
    simp [submit_application, *]

theorem c8_witness :
    sanitize_input id (s2l "Daily News") ≠ [] ∧
    sanitize_input id (s2l "Daily News") ∉ TitleIndex.empty.existing_titles ∧
    submit_application id id TitleIndex.empty (s2l "Daily News") false =
      (500, TitleIndex.empty) :=
  ⟨by decide, by decide,
   (c8_submit_application_error_paths id id TitleIndex.empty (s2l "Daily News") false).2.2
     (by decide) (by decide) rfl⟩

/-- Claim C9: with no index supplied, `enforce_guidelines` reports only the
empty-title check and the disallowed-words check; the periodicity-modifier
and affix rules contribute nothing. -/
theorem c9_guidelines_without_index (rom : Str → Str) (title : Str) (pc : Bool) :
    enforce_guidelines rom title none pc =
      (let clean_title := if pc then title else sanitize_input rom title
       let words := pySplit clean_title
       if words = [] then [s2l "Title cannot be empty."]
       else
         let disallowed := DISALLOWED_WORDS_SORTED.filter (· ∈ words)
         if disallowed = [] then [] else [disallowedReason disallowed]) := by
  simp only [enforce_guidelines]
  split <;> (split <;> simp)

/-- Claim C10: `add_title` is idempotent. -/
theorem c10_add_title_idempotent (rom mph : Str → Str) (idx : TitleIndex) (t : Str) :
    (idx.add_title rom mph t).add_title rom mph t = idx.add_title rom mph t := by
  by_cases h : sanitize_input rom t = []
  · simp [TitleIndex.add_title, h]
  · simp only [TitleIndex.add_title, if_neg h]
    refine TitleIndex.ext ?_ ?_ ?_ ?_ ?_ ?_ ?_ ?_ <;>
      first
        | exact setInsert_idem _ _
        | (funext k; dsimp only; split <;> simp [setInsert_idem])

theorem lcsFuel_le_left : ∀ (fuel : Nat) (a b : Str), lcsFuel fuel a b ≤ a.length := by
  intro fuel
  induction fuel with
  | zero => intro a b; simp [lcsFuel]
  | succ n ih =>
      intro a b
      match a, b with
      | [], _ => simp [lcsFuel]
      | _ :: _, [] => simp [lcsFuel]
      | x :: xs, y :: ys =>
          simp only [lcsFuel]
          split
          · have := ih xs ys; simp; omega
          · have h1 := ih (x :: xs) ys
            have h2 := ih xs (y :: ys)
            simp only [List.length_cons] at *
            omega

theorem lcsFuel_le_right : ∀ (fuel : Nat) (a b : Str), lcsFuel fuel a b ≤ b.length := by
  intro fuel
  induction fuel with
  | zero => intro a b; simp [lcsFuel]
  | succ n ih =>
      intro a b
      match a, b with
      | [], _ => simp [lcsFuel]
      | _ :: _, [] => simp [lcsFuel]
      | x :: xs, y :: ys =>
          simp only [lcsFuel]
          split
          · have := ih xs ys; simp; omega
          · have h1 := ih (x :: xs) ys
            have h2 := ih xs (y :: ys)
            simp only [List.length_cons] at *
            omega

theorem fuzz_ratio_nonneg (a b : Str) : 0 ≤ fuzz_ratio a b := by
  unfold fuzz_ratio
  split
  · norm_num
  · apply div_nonneg <;> positivity

theorem fuzz_ratio_le_100 (a b : Str) : fuzz_ratio a b ≤ 100 := by
  unfold fuzz_ratio
  split
  · norm_num
  · next h =>
      have hn : (0 : ℚ) < ((a.length : ℚ) + (b.length : ℚ)) := by
        have : 0 < a.length + b.length := Nat.pos_of_ne_zero h
        exact_mod_cast this
      rw [div_le_iff₀ hn]
      have h2 : 200 * lcsLen a b ≤ 100 * (a.length + b.length) := by
        have hl := lcsFuel_le_left (a.length + b.length) a b
        have hr := lcsFuel_le_right (a.length + b.length) a b
        unfold lcsLen
        omega
      exact_mod_cast h2

theorem bestCandidate_bound (clean_title : Str) :
    ∀ (cands : List Str) (acc : ℚ × Option Str), 0 ≤ acc.1 → acc.1 ≤ 100 →
      0 ≤ (cands.foldl
          (fun acc candidate =>
            if candidate = clean_title then acc
            else
              let score := fuzz_ratio clean_title candidate
              if acc.1 < score then (score, some candidate) else acc)
          acc).1 ∧
      (cands.foldl
          (fun acc candidate =>
            if candidate = clean_title then acc
            else
              let score := fuzz_ratio clean_title candidate
              if acc.1 < score then (score, some candidate) else acc)
          acc).1 ≤ 100 := by
  intro cands
  induction cands with
  | nil => intro acc h0 h1; simpa using ⟨h0, h1⟩
  | cons c cs ih =>
      intro acc h0 h1
      simp only [List.foldl_cons]
      by_cases hc : c = clean_title
      · simp only [if_pos hc]
        exact ih acc h0 h1
      · simp only [if_neg hc]
        by_cases hlt : acc.1 < fuzz_ratio clean_title c
        · simp only [if_pos hlt]
          exact ih _ (fuzz_ratio_nonneg _ _) (fuzz_ratio_le_100 _ _)
        · simp only [if_neg hlt]
          exact ih acc h0 h1

theorem bestCandidate_fst_bound (clean_title : Str) (cands : List Str) :
    0 ≤ (bestCandidate clean_title cands).1 ∧ (bestCandidate clean_title cands).1 ≤ 100 := by
  unfold bestCandidate
  exact bestCandidate_bound clean_title cands (0, none) (by norm_num) (by norm_num)

set_option maxHeartbeats 1000000 in
/-- Every branch of `detect_lexical_conflicts` returns a score in `[0, 100]`. -/
theorem detect_score_bounds (rom mph : Str → Str) (idx : TitleIndex)
    (raw_title : Str) (precleaned : Bool) :
    0 ≤ (idx.detect_lexical_conflicts rom mph raw_title precleaned).2 ∧
    (idx.detect_lexical_conflicts rom mph raw_title precleaned).2 ≤ 100 := by
  refine ⟨?_, ?_⟩
  · unfold TitleIndex.detect_lexical_conflicts
    dsimp only
    repeat' split
    all_goals try (norm_num; done)
    all_goals exact (bestCandidate_fst_bound _ _).1
  · unfold TitleIndex.detect_lexical_conflicts
    dsimp only
    repeat' split
    all_goals try (norm_num; done)
    all_goals try (simp only [max_le_iff]; exact ⟨by norm_num, fuzz_ratio_le_100 _ _⟩)
    all_goals exact (bestCandidate_fst_bound _ _).2

/-- Claim C4: for every index state and every input string (precleaned or
not), `detect_lexical_conflicts` returns a score in `[0, 100]`. -/
theorem c4_score_in_unit_range (rom mph : Str → Str) (idx : TitleIndex)
    (raw_title : Str) (precleaned : Bool) :
    0 ≤ (idx.detect_lexical_conflicts rom mph raw_title precleaned).2 ∧
    (idx.detect_lexical_conflicts rom mph raw_title precleaned).2 ≤ 100 :=
  detect_score_bounds rom mph idx raw_title precleaned

theorem round2_mono {a b : ℚ} (h : a ≤ b) : round2 a ≤ round2 b := by
  unfold round2
  have h1 : a * 100 + 1 / 2 ≤ b * 100 + 1 / 2 := by linarith
  have h2 : (⌊a * 100 + 1 / 2⌋ : ℚ) ≤ (⌊b * 100 + 1 / 2⌋ : ℚ) := by
    exact_mod_cast Int.floor_le_floor h1
  linarith

theorem round2_hundred : round2 100 = 100 := by
  unfold round2
  norm_num

theorem check_score_le_100 (rom mph : Str → Str) (idx : TitleIndex) (title : Str) :
    (check_combinations_and_phonetics rom mph idx title).2.1 ≤ 100 := by
  unfold check_combinations_and_phonetics
  dsimp only
  exact (detect_score_bounds rom mph idx (sanitize_input rom title) true).2

/-- Claim C7: for every query, index state, thresholds and semantic-stage
outcome (including failure), the returned `similarity_percentage` is at
least the lexical score, up to the 2-decimal rounding of returned fields. -/
theorem c7_similarity_at_least_lexical (rom mph : Str → Str) (lexTh ensTh : ℚ)
    (idx : TitleIndex) (title lang : Str) (rpc : Option (List (Str × ℚ))) :
    round2 (check_combinations_and_phonetics rom mph idx title).2.1 ≤
      (cached_verification_logic rom mph lexTh ensTh idx title lang
          rpc).similarity_percentage := by
  unfold cached_verification_logic
  dsimp only
  split
  · exact le_refl _
  · split
    · calc round2 (check_combinations_and_phonetics rom mph idx title).2.1
          ≤ round2 100 := round2_mono (check_score_le_100 rom mph idx title)
        _ = 100 := round2_hundred
    · split
      · exact le_refl _
      · split
        · exact round2_mono (le_max_left _ _)
        · exact round2_mono (le_max_left _ _)

theorem add_title_mem_existing (rom mph : Str → Str) (idx : TitleIndex) (t : Str)
    (h : sanitize_input rom t ≠ []) :
    sanitize_input rom t ∈ (idx.add_title rom mph t).existing_titles := by
  unfold TitleIndex.add_title
  dsimp only
  rw [if_neg h]
  exact mem_setInsert_self _ _

/-- Claim C1 (counterexample): for the raw title `""`, whose normalization
is empty, adding and then detecting returns the empty-title reason, which
does not begin with "Exact match". -/
theorem c1_counterexample :
    ¬ ((((TitleIndex.empty.add_title id id []).detect_lexical_conflicts id id
          [] false).2 = 100) ∧
       ((((TitleIndex.empty.add_title id id []).detect_lexical_conflicts id id
          [] false).1.headD []).take 11 = s2l "Exact match")) := by
  decide

/-- Claim C1 (amended): for every raw title whose normalization is
non-empty, after `add_title` the detector returns score `100` and a first
reason beginning with "Exact match".  (A raw title normalizing to the
empty string instead triggers the empty-title rule, whose reason text
differs.) -/
theorem c1_exact_match_after_add (rom mph : Str → Str) (idx : TitleIndex) (t : Str)
    (h : sanitize_input rom t ≠ []) :
    ((idx.add_title rom mph t).detect_lexical_conflicts rom mph t false).2 = 100 ∧
    ((((idx.add_title rom mph t).detect_lexical_conflicts rom mph t
        false).1.headD []).take 11 = s2l "Exact match") := by
  have hmem := add_title_mem_existing rom mph idx t h
  unfold TitleIndex.detect_lexical_conflicts
  simp only [Bool.false_eq_true, if_false]
  rw [if_neg h, if_pos hmem]
  refine ⟨rfl, ?_⟩
  show (exactReason _).take 11 = s2l "Exact match"
  unfold exactReason
  rw [List.append_assoc, List.append_assoc,
    List.take_append_of_le_length (by decide)]
  decide

theorem c1_witness :
    sanitize_input id (s2l "Hindu") ≠ [] ∧
    (((TitleIndex.empty.add_title id id (s2l "Hindu")).detect_lexical_conflicts id id
        (s2l "Hindu") false).2 = 100 ∧
     ((((TitleIndex.empty.add_title id id (s2l "Hindu")).detect_lexical_conflicts id id
        (s2l "Hindu") false).1.headD []).take 11 = s2l "Exact match")) :=
  ⟨by decide, c1_exact_match_after_add id id TitleIndex.empty (s2l "Hindu") (by decide)⟩

theorem nonAlnumSub_chars (s : Str) :
    ∀ c ∈ nonAlnumSub s, (isLowerAlnum c || isPySpace c) = true := by
  intro c hc
  rcases List.mem_map.mp hc with ⟨d, _, rfl⟩
  split
  · assumption
  · decide

theorem collapseWS_chars : ∀ (s : Str), ∀ c ∈ collapseWS s,
    c = ' ' ∨ (c ∈ s ∧ isPySpace c = false) := by
  intro s
  induction s with
  | nil => intro c hc; simp [collapseWS] at hc
  | cons a t ih =>
      cases t with
      | nil =>
          intro c hc
          simp only [collapseWS] at hc
          split at hc
          · simp at hc; exact Or.inl hc
          · next h =>
              simp at hc
              subst hc
              exact Or.inr ⟨List.mem_cons_self _ _, by simpa using h⟩
      | cons b u =>
          intro c hc
          simp only [collapseWS] at hc
          split at hc
          · rcases ih c hc with h | ⟨hm, hs⟩
            · exact Or.inl h
            · exact Or.inr ⟨List.mem_cons_of_mem _ hm, hs⟩
          · next h =>
              rcases List.mem_cons.mp hc with rfl | hrest
              · by_cases ha : isPySpace a = true
                · simp [ha]
                · simp only [ha, if_neg, Bool.false_eq_true, if_false] at *
                  exact Or.inr ⟨List.mem_cons_self _ _, by simpa using ha⟩
              · rcases ih c hrest with h2 | ⟨hm, hs⟩
                · exact Or.inl h2
                · exact Or.inr ⟨List.mem_cons_of_mem _ hm, hs⟩

theorem collapseWS_cons_shape : ∀ (s : Str) (c : Char),
    ∃ t, collapseWS (c :: s) = (if isPySpace c then ' ' else c) :: t := by
  intro s
  induction s with
  | nil =>
      intro c
      refine ⟨[], ?_⟩
      simp only [collapseWS]
      split <;> simp_all
  | cons d rest ih =>
      intro c
      by_cases h : isPySpace c = true ∧ isPySpace d = true
      · obtain ⟨t', ht'⟩ := ih d
        refine ⟨t', ?_⟩
        simp only [collapseWS, h.1, h.2, Bool.and_self, if_pos rfl, if_true]
        rw [ht', h.1, h.2] at *
        simp [h.1, h.2]
      · refine ⟨collapseWS (d :: rest), ?_⟩
        simp only [collapseWS]
        have hb : (isPySpace c && isPySpace d) = false := by
          cases hc : isPySpace c <;> cases hd : isPySpace d <;> simp_all
        rw [hb]
        simp

/-- No two adjacent whitespace characters survive `collapseWS`. -/
theorem collapseWS_chain : ∀ (s : Str),
    List.Chain' (fun a b => ¬(isPySpace a = true ∧ isPySpace b = true)) (collapseWS s) := by
  intro s
  induction s with
  | nil => simp [collapseWS]
  | cons a t ih =>
      cases t with
      | nil =>
          simp only [collapseWS]
          split <;> simp
      | cons b u =>
          simp only [collapseWS]
          split
          · exact ih
          · next h =>
              obtain ⟨t', ht'⟩ := collapseWS_cons_shape u b
              rw [ht']
              rw [List.chain'_cons]
              refine ⟨?_, ht' ▸ ih⟩
              have hps1 : isPySpace (if isPySpace a then ' ' else a) = isPySpace a := by
                cases hA : isPySpace a <;> simp [hA] <;> decide
              have hps2 : isPySpace (if isPySpace b then ' ' else b) = isPySpace b := by
                cases hB : isPySpace b <;> simp [hB] <;> decide
              rw [hps1, hps2]
              intro hcon
              rw [hcon.1, hcon.2] at h
              simp at h

theorem head_dropWhile_pySpace : ∀ (l : Str) (a : Char),
    (l.dropWhile isPySpace).head? = some a → isPySpace a = false := by
  intro l
  induction l with
  | nil => intro a h; simp [List.dropWhile] at h
  | cons c cs ih =>
      intro a h
      by_cases hc : isPySpace c = true
      · rw [List.dropWhile_cons_of_pos hc] at h
        exact ih a h
      · rw [List.dropWhile_cons_of_neg hc] at h
        simp only [List.head?_cons, Option.some.injEq] at h
        subst h
        simpa using hc

theorem stripWS_subset (s : Str) : ∀ c ∈ stripWS s, c ∈ s := by
  intro c hc
  unfold stripWS at hc
  rw [List.mem_reverse] at hc
  have h1 := (List.dropWhile_suffix isPySpace).subset hc
  rw [List.mem_reverse] at h1
  exact (List.dropWhile_suffix isPySpace).subset h1

theorem chain'_reverse_of_symm {R : Char → Char → Prop} (hsym : ∀ a b, R a b → R b a)
    (l : Str) (h : List.Chain' R l) : List.Chain' R l.reverse := by
  rw [List.chain'_reverse]
  exact h.imp fun a b hab => hsym a b hab

theorem stripWS_chain {R : Char → Char → Prop} (hsym : ∀ a b, R a b → R b a) (s : Str)
    (h : List.Chain' R s) : List.Chain' R (stripWS s) := by
  unfold stripWS
  have h1 : List.Chain' R (s.dropWhile isPySpace) :=
    h.suffix (List.dropWhile_suffix isPySpace)
  have h2 : List.Chain' R (s.dropWhile isPySpace).reverse :=
    chain'_reverse_of_symm hsym _ h1
  have h3 : List.Chain' R ((s.dropWhile isPySpace).reverse.dropWhile isPySpace) :=
    h2.suffix (List.dropWhile_suffix isPySpace)
  exact chain'_reverse_of_symm hsym _ h3

theorem stripWS_head (s : Str) (a : Char)
    (h : (stripWS s).head? = some a) : isPySpace a = false := by
  unfold stripWS at h
  set z := s.dropWhile isPySpace with hz
  have hpre : (z.reverse.dropWhile isPySpace).reverse <+: z := by
    apply List.reverse_suffix.mp
    rw [List.reverse_reverse]
    exact List.dropWhile_suffix isPySpace
  obtain ⟨t, ht⟩ := hpre
  cases hcase : (z.reverse.dropWhile isPySpace).reverse with
  | nil => rw [hcase] at h; simp at h
  | cons b bs =>
      rw [hcase] at h ht
      simp only [List.head?_cons, Option.some.injEq] at h
      have hzb : z.head? = some b := by rw [← ht]; simp
      exact h ▸ head_dropWhile_pySpace s b (hz ▸ hzb)

theorem stripWS_getLast (s : Str) (a : Char)
    (h : (stripWS s).getLast? = some a) : isPySpace a = false := by
  unfold stripWS at h
  rw [List.getLast?_reverse] at h
  exact head_dropWhile_pySpace (s.dropWhile isPySpace).reverse a h

/-- The leetspeak source characters `0134578@!`. -/
def isLeetChar (c : Char) : Bool :=
  c = '0' || c = '1' || c = '3' || c = '4' || c = '5' || c = '7' || c = '8' ||
  c = '@' || c = '!'

theorem leetTr_not_leet (c : Char) : isLeetChar (leetTr c) = false := by
  unfold leetTr
  split_ifs <;> first
    | decide
    | (simp only [isLeetChar, Bool.or_eq_false_iff, decide_eq_false_iff_not]; tauto)

theorem leetTr_fix_of_not_leet (c : Char) (h : isLeetChar c = false) : leetTr c = c := by
  simp only [isLeetChar, Bool.or_eq_false_iff, decide_eq_false_iff_not] at h
  unfold leetTr
  simp only [h.1.1.1.1.1.1.1.1, h.1.1.1.1.1.1.1.2, h.1.1.1.1.1.1.2, h.1.1.1.1.1.2,
    h.1.1.1.1.2, h.1.1.1.2, h.1.1.2, h.1.2, h.2, if_false]

theorem wf_space_is_blank (c : Char) (hc : isLowerAlnum c = true ∨ c = ' ')
    (hs : isPySpace c = true) : c = ' ' := by
  simp only [isPySpace, Bool.or_eq_true, decide_eq_true_eq] at hs
  rcases hs with ((((h | h) | h) | h) | h) | h <;> subst h <;>
    first
      | rfl
      | (rcases hc with hc | hc <;> exact absurd hc (by decide))

theorem lowerAlnum_not_space (c : Char) (h : isLowerAlnum c = true) :
    isPySpace c = false := by
  cases hs : isPySpace c
  · rfl
  · have hb := wf_space_is_blank c (Or.inl h) hs
    subst hb
    exact absurd h (by decide)

/-- Shared shape facts about `sanitize_input` output: characters in
`[a-z0-9 ]`, no two adjacent whitespace characters, no leading or
trailing whitespace. -/
theorem sanitize_wf (rom : Str → Str) (x : Str) :
    (∀ c ∈ sanitize_input rom x, isLowerAlnum c = true ∨ c = ' ') ∧
    List.Chain' (fun a b => ¬(isPySpace a = true ∧ isPySpace b = true))
      (sanitize_input rom x) ∧
    (sanitize_input rom x).head? ≠ some ' ' ∧
    (sanitize_input rom x).getLast? ≠ some ' ' := by
  unfold sanitize_input _sanitize_cached
  refine ⟨?_, ?_, ?_, ?_⟩
  · intro c hc
    have hcz := stripWS_subset _ c hc
    rcases collapseWS_chars _ c hcz with h | ⟨hm, hs⟩
    · exact Or.inr h
    · have hor := nonAlnumSub_chars _ c hm
      left
      simpa [hs] using hor
  · exact stripWS_chain (by tauto) _ (collapseWS_chain _)
  · intro hcon
    have := stripWS_head _ ' ' hcon
    exact absurd this (by decide)
  · intro hcon
    have := stripWS_getLast _ ' ' hcon
    exact absurd this (by decide)

theorem sanitize_no_leet (rom : Str → Str) (x : Str) :
    ∀ c ∈ sanitize_input rom x, isLeetChar c = false := by
  unfold sanitize_input _sanitize_cached
  intro c hc
  have hcz := stripWS_subset _ c hc
  rcases collapseWS_chars _ c hcz with h | ⟨hm, _⟩
  · subst h; decide
  · rcases List.mem_map.mp hm with ⟨d, hd, rfl⟩
    rcases List.mem_map.mp hd with ⟨e, _, rfl⟩
    split
    · exact leetTr_not_leet _
    · decide

theorem map_fix {f : Char → Char} : ∀ (l : Str), (∀ c ∈ l, f c = c) → l.map f = l := by
  intro l
  induction l with
  | nil => intro _; rfl
  | cons c cs ih =>
      intro h
      simp only [List.map_cons]
      rw [h c (List.mem_cons_self _ _), ih (fun d hd => h d (List.mem_cons_of_mem _ hd))]

theorem pyLowerChar_fix (c : Char) (h : isLowerAlnum c = true ∨ c = ' ') :
    pyLowerChar c = c := by
  unfold pyLowerChar
  have hcond : (65 ≤ c.toNat && c.toNat ≤ 90) = false := by
    rcases h with h | rfl
    · simp only [isLowerAlnum, Bool.or_eq_true, Bool.and_eq_true, decide_eq_true_eq] at h
      simp only [Bool.and_eq_false_iff, decide_eq_false_iff_not]
      omega
    · decide
  rw [hcond]
  rfl

theorem nonAlnumSub_fix (s : Str)
    (h : ∀ c ∈ s, isLowerAlnum c = true ∨ c = ' ') : nonAlnumSub s = s := by
  apply map_fix
  intro c hc
  rcases h c hc with hl | rfl
  · simp [hl]
  · decide

theorem collapseWS_fix : ∀ (s : Str),
    (∀ c ∈ s, isPySpace c = true → c = ' ') →
    List.Chain' (fun a b => ¬(isPySpace a = true ∧ isPySpace b = true)) s →
    collapseWS s = s := by
  intro s
  induction s with
  | nil => intro _ _; rfl
  | cons a t ih =>
      cases t with
      | nil =>
          intro hsp _
          simp only [collapseWS]
          split
          · next h => rw [hsp a (List.mem_cons_self _ _) h]
          · rfl
      | cons b u =>
          intro hsp hchain
          rw [List.chain'_cons] at hchain
          have hnot : (isPySpace a && isPySpace b) = false := by
            cases hA : isPySpace a <;> cases hB : isPySpace b <;> simp_all
          simp only [collapseWS, hnot, Bool.false_eq_true, if_false]
          have htail : collapseWS (b :: u) = b :: u :=
            ih (fun c hc h => hsp c (List.mem_cons_of_mem _ hc) h) hchain.2
          rw [htail]
          congr 1
          split
          · next h => exact (hsp a (List.mem_cons_self _ _) h).symm
          · rfl

theorem dropWhile_fix (p : Char → Bool) (l : Str)
    (h : ∀ a, l.head? = some a → p a = false) : l.dropWhile p = l := by
  cases l with
  | nil => rfl
  | cons c cs =>
      have := h c rfl
      rw [List.dropWhile_cons_of_neg (by simp [this])]

theorem stripWS_fix (s : Str) (hh : ∀ a, s.head? = some a → isPySpace a = false)
    (hl : ∀ a, s.getLast? = some a → isPySpace a = false) : stripWS s = s := by
  unfold stripWS
  rw [dropWhile_fix _ s hh]
  rw [dropWhile_fix _ s.reverse (fun a ha => hl a (by rwa [List.head?_reverse] at ha))]
  exact List.reverse_reverse s

/-- Claim C5: every normalized output contains only `[a-z0-9 ]`, has no
leading or trailing space, and no two consecutive spaces. -/
theorem c5_normalized_shape (rom : Str → Str) (x : Str) :
    (∀ c ∈ sanitize_input rom x, isLowerAlnum c = true ∨ c = ' ') ∧
    List.Chain' (fun a b => ¬(a = ' ' ∧ b = ' ')) (sanitize_input rom x) ∧
    (sanitize_input rom x).head? ≠ some ' ' ∧
    (sanitize_input rom x).getLast? ≠ some ' ' := by
  obtain ⟨hchars, hchain, hh, hl⟩ := sanitize_wf rom x
  refine ⟨hchars, ?_, hh, hl⟩
  refine hchain.imp ?_
  intro a b hab hcon
  exact hab ⟨by rw [hcon.1]; decide, by rw [hcon.2]; decide⟩

/-- Claim C6: normalization is idempotent, given that the romanization
step fixes already-normalized ASCII strings (as `unidecode` does). -/
theorem c6_sanitize_idempotent (rom : Str → Str)
    (hrom : ∀ s, (∀ c ∈ s, isLowerAlnum c = true ∨ c = ' ') → rom s = s) (x : Str) :
    sanitize_input rom (sanitize_input rom x) = sanitize_input rom x := by
  obtain ⟨hchars, hchain, hh, hl⟩ := sanitize_wf rom x
  have hleet := sanitize_no_leet rom x
  set y := sanitize_input rom x with hy
  show sanitize_input rom y = y
  unfold sanitize_input _sanitize_cached
  rw [hrom y hchars]
  rw [map_fix y (fun c hc => by
    rw [pyLowerChar_fix c (hchars c hc)]
    exact leetTr_fix_of_not_leet c (hleet c hc))]
  rw [nonAlnumSub_fix y hchars]
  rw [collapseWS_fix y (fun c hc hs => wf_space_is_blank c (hchars c hc) hs) hchain]
  apply stripWS_fix
  · intro a ha
    rcases hchars a (List.mem_of_mem_head? ha) with hA | rfl
    · exact lowerAlnum_not_space a hA
    · exact absurd ha hh
  · intro a ha
    rcases hchars a (List.mem_of_mem_getLast? ha) with hA | rfl
    · exact lowerAlnum_not_space a hA
    · exact absurd ha hl

theorem c6_witness :
    (∀ s : Str, (∀ c ∈ s, isLowerAlnum c = true ∨ c = ' ') → id s = s) ∧
    sanitize_input id (sanitize_input id (s2l "Nam4skar!! Daily")) =
      sanitize_input id (s2l "Nam4skar!! Daily") :=
  ⟨fun _ _ => rfl,
   c6_sanitize_idempotent id (fun _ _ => rfl) (s2l "Nam4skar!! Daily")⟩

theorem pySplitAux_ne_nil : ∀ (s acc : Str), ∀ w ∈ pySplitAux s acc, w ≠ [] := by
  intro s
  induction s with
  | nil =>
      intro acc w hw
      simp only [pySplitAux] at hw
      split at hw
      · simp at hw
      · next h =>
          simp only [List.mem_singleton] at hw
          subst hw
          simpa using h
  | cons c cs ih =>
      intro acc w hw
      simp only [pySplitAux] at hw
      split at hw
      · split at hw
        · exact ih [] w hw
        · next h =>
            rcases List.mem_cons.mp hw with rfl | hw'
            · simpa using h
            · exact ih [] w hw'
      · exact ih (c :: acc) w hw

theorem pySplit_ne_nil (s : Str) : ∀ w ∈ pySplit s, w ≠ [] :=
  pySplitAux_ne_nil s []

theorem make_acronym_ne_nil (words : List Str) (h : words ≠ [])
    (hw : ∀ w ∈ words, w ≠ []) : make_acronym words ≠ [] := by
  cases words with
  | nil => exact absurd rfl h
  | cons w ws =>
      cases hww : w with
      | nil => exact absurd hww (hw w (List.mem_cons_self _ _))
      | cons c cs =>
          subst hww
          simp [make_acronym]

theorem mem_ite_setInsert [DecidableEq α] {x b : α} {s : List α} (c : Prop) [Decidable c]
    (h : x ∈ s) : x ∈ (if c then setInsert b s else s) := by
  split
  · exact mem_setInsert_of_mem _ h
  · exact h

/-- The operations that mutate a `TitleIndex` during the process lifetime. -/
inductive TitleOp where
  | add (t : Str)
  | ext (ts : List Str)
  | clear

def applyOp (rom mph : Str → Str) (idx : TitleIndex) : TitleOp → TitleIndex
  | .add t => idx.add_title rom mph t
  | .ext ts => idx.extend rom mph ts
  | .clear => idx.clear

def runOps (rom mph : Str → Str) (ops : List TitleOp) : TitleIndex :=
  ops.foldl (applyOp rom mph) TitleIndex.empty

def addedStep (acc : List Str) : TitleOp → List Str
  | .add t => acc ++ [t]
  | .ext ts => acc ++ ts
  | .clear => []

/-- The raw titles added since the last `clear` (all of them if none). -/
def addedSinceClear (ops : List TitleOp) : List Str :=
  ops.foldl addedStep []

/-- The normalized forms the index is expected to hold: the non-empty
normalizations of the raw titles added since the last `clear`. -/
def expectedTitles (rom : Str → Str) (ops : List TitleOp) : List Str :=
  ((addedSinceClear ops).map (sanitize_input rom)).filter (· ≠ [])

/-- Invariants 2-4 of the spec, per normalized title in the index. -/
def IndexInv (mph : Str → Str) (idx : TitleIndex) : Prop :=
  ∀ n ∈ idx.existing_titles,
    n ≠ [] ∧
    idx.canonical_titles n ≠ [] ∧
    n ∈ idx.first_char_index (n.headD ' ') ∧
    (∀ tk ∈ pySplit n, n ∈ idx.token_index tk) ∧
    (∀ g ∈ char_ngrams n, n ∈ idx.trigram_index g) ∧
    (mph n ≠ [] → n ∈ idx.phonetic_map (mph n)) ∧
    (2 ≤ (pySplit n).length →
      n ∈ idx.sorted_titles_map (sortedKey n) ∧
      n ∈ idx.acronym_map (make_acronym (pySplit n)))

theorem add_title_nil (rom mph : Str → Str) (idx : TitleIndex) (t : Str)
    (h : sanitize_input rom t = []) : idx.add_title rom mph t = idx := by
  simp [TitleIndex.add_title, h]

theorem add_title_good (rom mph : Str → Str) (idx : TitleIndex) (t : Str) (A : List Str)
    (hex : ∀ n, n ∈ idx.existing_titles ↔
        n ∈ (A.map (sanitize_input rom)).filter (· ≠ []))
    (hinv : IndexInv mph idx) :
    (∀ n, n ∈ (idx.add_title rom mph t).existing_titles ↔
        n ∈ ((A ++ [t]).map (sanitize_input rom)).filter (· ≠ [])) ∧
    IndexInv mph (idx.add_title rom mph t) := by
  by_cases h : sanitize_input rom t = []
  · rw [add_title_nil rom mph idx t h]
    refine ⟨?_, hinv⟩
    intro n
    rw [hex n]
    simp [List.filter_append, h]
  · constructor
    · intro n
      unfold TitleIndex.add_title
      rw [if_neg h]
      dsimp only
      rw [mem_setInsert]
      rw [hex n]
      simp only [List.map_append, List.filter_append, List.map_cons, List.map_nil,
        List.mem_append]
      constructor
      · rintro (rfl | hn)
        · right; simp [h]
        · left; exact hn
      · rintro (hn | hn)
        · right; exact hn
        · left
          simp only [List.filter_cons, List.filter_nil] at hn
          split at hn
          · simpa using hn
          · simp at hn
    · intro m hm'
      unfold TitleIndex.add_title at hm' ⊢
      rw [if_neg h] at hm' ⊢
      dsimp only at hm' ⊢
      rcases (mem_setInsert _ _ _).mp hm' with rfl | hm
      · refine ⟨h, ?_, ?_, ?_, ?_, ?_, ?_⟩
        · rw [if_pos rfl]; exact setInsert_ne_nil _ _
        · rw [if_pos rfl]; exact mem_setInsert_self _ _
        · intro tk htk
          rw [if_pos htk]; exact mem_setInsert_self _ _
        · intro g hg
          rw [if_pos hg]; exact mem_setInsert_self _ _
        · intro hmp
          rw [if_pos ⟨hmp, rfl⟩]; exact mem_setInsert_self _ _
        · intro hlen
          have hone : 1 < (pySplit (sanitize_input rom t)).length := hlen
          constructor
          · rw [if_pos ⟨hone, rfl⟩]; exact mem_setInsert_self _ _
          · have hacr : make_acronym (pySplit (sanitize_input rom t)) ≠ [] := by
              apply make_acronym_ne_nil
              · intro hcon
                rw [hcon] at hlen
                simp at hlen
              · exact pySplit_ne_nil _
            rw [if_pos ⟨hone, hacr, rfl⟩]
            exact mem_setInsert_self _ _
      · obtain ⟨h1, h2, h3, h4, h5, h6, h7⟩ := hinv m hm
        refine ⟨h1, ?_, ?_, ?_, ?_, ?_, ?_⟩
        · split
          · exact setInsert_ne_nil _ _
          · exact h2
        · exact mem_ite_setInsert _ h3
        · intro tk htk
          exact mem_ite_setInsert _ (h4 tk htk)
        · intro g hg
          exact mem_ite_setInsert _ (h5 g hg)
        · intro hmp
          exact mem_ite_setInsert _ (h6 hmp)
        · intro hlen
          exact ⟨mem_ite_setInsert _ (h7 hlen).1, mem_ite_setInsert _ (h7 hlen).2⟩

theorem extend_good (rom mph : Str → Str) : ∀ (ts : List Str) (idx : TitleIndex)
    (A : List Str),
    (∀ n, n ∈ idx.existing_titles ↔
        n ∈ (A.map (sanitize_input rom)).filter (· ≠ [])) →
    IndexInv mph idx →
    (∀ n, n ∈ (idx.extend rom mph ts).existing_titles ↔
        n ∈ ((A ++ ts).map (sanitize_input rom)).filter (· ≠ [])) ∧
    IndexInv mph (idx.extend rom mph ts) := by
  intro ts
  induction ts with
  | nil =>
      intro idx A hex hinv
      constructor
      · intro n
        simpa [TitleIndex.extend] using hex n
      · simpa [TitleIndex.extend] using hinv
  | cons t ts' ih =>
      intro idx A hex hinv
      obtain ⟨hex', hinv'⟩ := add_title_good rom mph idx t A hex hinv
      have hstep : idx.extend rom mph (t :: ts') =
          (idx.add_title rom mph t).extend rom mph ts' := rfl
      rw [hstep]
      have hres := ih (idx.add_title rom mph t) (A ++ [t]) hex' hinv'
      rw [List.append_cons A t ts']
      exact hres

theorem empty_good (rom mph : Str → Str) :
    (∀ n, n ∈ TitleIndex.empty.existing_titles ↔
        n ∈ (([] : List Str).map (sanitize_input rom)).filter (· ≠ [])) ∧
    IndexInv mph TitleIndex.empty := by
  constructor
  · intro n; simp [TitleIndex.empty]
  · intro n hn; simp [TitleIndex.empty] at hn

theorem runOps_good (rom mph : Str → Str) : ∀ (ops : List TitleOp) (idx : TitleIndex)
    (A : List Str),
    (∀ n, n ∈ idx.existing_titles ↔
        n ∈ (A.map (sanitize_input rom)).filter (· ≠ [])) →
    IndexInv mph idx →
    (∀ n, n ∈ (ops.foldl (applyOp rom mph) idx).existing_titles ↔
        n ∈ ((ops.foldl addedStep A).map (sanitize_input rom)).filter (· ≠ [])) ∧
    IndexInv mph (ops.foldl (applyOp rom mph) idx) := by
  intro ops
  induction ops with
  | nil => intro idx A hex hinv; exact ⟨hex, hinv⟩
  | cons op rest ih =>
      intro idx A hex hinv
      simp only [List.foldl_cons]
      cases op with
      | add t =>
          obtain ⟨hex', hinv'⟩ := add_title_good rom mph idx t A hex hinv
          exact ih _ _ hex' hinv'
      | ext ts =>
          obtain ⟨hex', hinv'⟩ := extend_good rom mph ts idx A hex hinv
          exact ih _ _ hex' hinv'
      | clear =>
          obtain ⟨hex', hinv'⟩ := empty_good rom mph
          exact ih _ _ hex' hinv'

/-- Claim C2: after every sequence of `add_title`, `extend` and `clear`
operations from the empty index, the index holds exactly the non-empty
normalizations of the raw titles added since the last `clear`, and every
held title satisfies the per-title bucket invariants; a raw title whose
normalization is empty leaves the index untouched, and `clear` restores
the empty structure. -/
theorem c2_index_invariants (rom mph : Str → Str) (ops : List TitleOp) :
    (∀ n, n ∈ (runOps rom mph ops).existing_titles ↔ n ∈ expectedTitles rom ops) ∧
    IndexInv mph (runOps rom mph ops) ∧
    (∀ (idx : TitleIndex) (t : Str), sanitize_input rom t = [] →
        idx.add_title rom mph t = idx) ∧
    (∀ idx : TitleIndex, idx.clear = TitleIndex.empty) := by
  obtain ⟨hex0, hinv0⟩ := empty_good rom mph
  obtain ⟨hex, hinv⟩ := runOps_good rom mph ops TitleIndex.empty [] hex0 hinv0
  exact ⟨hex, hinv, fun idx t h => add_title_nil rom mph idx t h, fun _ => rfl⟩

theorem c2_witness :
    s2l "indian express" ∈
      (runOps id id [TitleOp.add (s2l "Daily News"), TitleOp.clear,
        TitleOp.add (s2l "Hindu"), TitleOp.ext [s2l "Indian Express"]]).existing_titles :=
  ((c2_index_invariants id id _).1 _).mpr (by decide)

theorem parts_length_le_flatten (ps : List (List Str)) (h : ∀ p ∈ ps, p ≠ []) :
    ps.length ≤ ps.flatten.length := by
  induction ps with
  | nil => simp
  | cons p rest ih =>
      simp only [List.flatten_cons, List.length_cons, List.length_append]
      have hp : 1 ≤ p.length := by
        have := h p (List.mem_cons_self _ _)
        cases p with
        | nil => exact absurd rfl this
        | cons _ _ => simp
      have := ih (fun q hq => h q (List.mem_cons_of_mem _ hq))
      omega

theorem mem_splitsOf : ∀ (pre suf : List Str), pre ≠ [] →
    (pre, suf) ∈ splitsOf (pre ++ suf) := by
  intro pre
  induction pre with
  | nil => intro suf h; exact absurd rfl h
  | cons w pre' ih =>
      intro suf _
      cases pre' with
      | nil => simp [splitsOf]
      | cons v pre'' =>
          have hmem := ih suf (by simp)
          show (w :: v :: pre'', suf) ∈ splitsOf ((w :: v :: pre'') ++ suf)
          rw [List.cons_append]
          rw [show splitsOf (w :: ((v :: pre'') ++ suf)) =
              ([w], (v :: pre'') ++ suf) ::
                (splitsOf ((v :: pre'') ++ suf)).map (fun p => (w :: p.1, p.2)) from rfl]
          exact List.mem_cons_of_mem _ (List.mem_map_of_mem _ hmem)

/-- Soundness of the combination search: every grouping it lists comes
from a partition of the word sequence into non-empty spans whose phrases
are existing titles different from the full input. -/
theorem segsFuel_sound (existing : List Str) (clean_title : Str) :
    ∀ (fuel : Nat) (ws : List Str) (g : List Str),
      g ∈ segsFuel existing clean_title fuel ws →
      ∃ ps : List (List Str), ps.flatten = ws ∧ ps ≠ [] ∧ (∀ p ∈ ps, p ≠ []) ∧
        g = ps.map joinSpaces ∧
        ∀ p ∈ ps, joinSpaces p ∈ existing ∧ joinSpaces p ≠ clean_title := by
  intro fuel
  induction fuel with
  | zero => intro ws g hg; simp [segsFuel] at hg
  | succ f ih =>
      intro ws g hg
      simp only [segsFuel] at hg
      rcases List.mem_flatMap.mp hg with ⟨pr, hpr, hbranch⟩
      obtain ⟨hpre, heq, _⟩ := splitsOf_spec ws pr hpr
      split at hbranch
      · next hcond =>
          split at hbranch
          · next hsuf =>
              simp only [List.mem_singleton] at hbranch
              subst hbranch
              refine ⟨[pr.1], ?_, by simp, ?_, by simp, ?_⟩
              · simp only [List.flatten_cons, List.flatten_nil, List.append_nil]
                rw [← heq, hsuf, List.append_nil]
              · intro p hp
                simp only [List.mem_singleton] at hp
                subst hp
                exact hpre
              · intro p hp
                simp only [List.mem_singleton] at hp
                subst hp
                exact hcond
          · rcases List.mem_map.mp hbranch with ⟨g', hg', rfl⟩
            obtain ⟨ps', hflat, _, hne, hmap, hcond'⟩ := ih pr.2 g' hg'
            refine ⟨pr.1 :: ps', ?_, by simp, ?_, ?_, ?_⟩
            · simp only [List.flatten_cons, hflat]
              exact heq
            · intro p hp
              rcases List.mem_cons.mp hp with rfl | hp'
              · exact hpre
              · exact hne p hp'
            · simp [hmap]
            · intro p hp
              rcases List.mem_cons.mp hp with rfl | hp'
              · exact hcond
              · exact hcond' p hp'
      · simp at hbranch

/-- Completeness of the combination search: every partition into
non-empty spans whose phrases are existing titles different from the
full input is listed, given enough fuel. -/
theorem segsFuel_complete (existing : List Str) (clean_title : Str) :
    ∀ (fuel : Nat) (ps : List (List Str)), ps ≠ [] → (∀ p ∈ ps, p ≠ []) →
      (∀ p ∈ ps, joinSpaces p ∈ existing ∧ joinSpaces p ≠ clean_title) →
      ps.length ≤ fuel →
      ps.map joinSpaces ∈ segsFuel existing clean_title fuel ps.flatten := by
  intro fuel
  induction fuel with
  | zero =>
      intro ps hne _ _ hlen
      cases ps with
      | nil => exact absurd rfl hne
      | cons _ _ => simp at hlen
  | succ f ih =>
      intro ps hne hnil hcond hlen
      cases ps with
      | nil => exact absurd rfl hne
      | cons p rest =>
          simp only [segsFuel]
          apply List.mem_flatMap.mpr
          refine ⟨(p, rest.flatten), ?_, ?_⟩
          · have := mem_splitsOf p rest.flatten (hnil p (List.mem_cons_self _ _))
            simpa using this
          · dsimp only
            rw [if_pos (hcond p (List.mem_cons_self _ _))]
            cases rest with
            | nil => simp
            | cons q rest' =>
                have hqne : q ≠ [] := hnil q (List.mem_cons_of_mem _ (List.mem_cons_self _ _))
                have hflatne : (q :: rest').flatten ≠ [] := by
                  simp only [List.flatten_cons]
                  intro hcon
                  exact hqne (List.append_eq_nil.mp hcon).1
                rw [if_neg hflatne]
                simp only [List.map_cons]
                apply List.mem_map_of_mem
                exact ih (q :: rest') (by simp)
                  (fun r hr => hnil r (List.mem_cons_of_mem _ hr))
                  (fun r hr => hcond r (List.mem_cons_of_mem _ hr))
                  (by simp only [List.length_cons] at hlen ⊢; omega)

/-- A partition of the normalized title's token sequence into at least two
contiguous spans, each of which (joined by single spaces) is an existing
corpus title not equal to the full input. -/
def IsCombination (existing : List Str) (clean_title : Str) (ps : List (List Str)) : Prop :=
  ps.flatten = pySplit clean_title ∧ 2 ≤ ps.length ∧
  ∀ p ∈ ps, p ≠ [] ∧ joinSpaces p ∈ existing ∧ joinSpaces p ≠ clean_title

theorem combination_of_some (idx : TitleIndex) (clean_title : Str) (names : List Str)
    (h : idx._detect_combination clean_title = some names) :
    ∃ ps, IsCombination idx.existing_titles clean_title ps ∧
      names = ps.map (fun p => idx.display_title (joinSpaces p)) := by
  unfold TitleIndex._detect_combination at h
  dsimp only at h
  split at h
  · exact absurd h (by simp)
  · next hlen =>
      rcases hfind : (segsFuel idx.existing_titles clean_title
          (pySplit clean_title).length (pySplit clean_title)).find?
          (fun g => decide (2 ≤ g.length)) with _ | g₀
      · rw [hfind] at h; exact absurd h (by simp)
      · rw [hfind] at h
        replace h : some (List.map idx.display_title g₀) = some names := h
        injection h with h
        have hg₀mem := List.mem_of_find?_eq_some hfind
        have hg₀pred := List.find?_some hfind
        obtain ⟨ps₀, hflat₀, _, hnil₀, hmap₀, hcond₀⟩ :=
          segsFuel_sound idx.existing_titles clean_title _ _ g₀ hg₀mem
        refine ⟨ps₀, ⟨hflat₀, ?_, ?_⟩, ?_⟩
        · have : 2 ≤ g₀.length := by simpa using hg₀pred
          rwa [hmap₀, List.length_map] at this
        · intro p hp
          exact ⟨hnil₀ p hp, (hcond₀ p hp).1, (hcond₀ p hp).2⟩
        · rw [← h, hmap₀, List.map_map]
          rfl

theorem combination_of_exists (idx : TitleIndex) (clean_title : Str)
    (hex : ∃ ps, IsCombination idx.existing_titles clean_title ps) :
    ∃ ps, IsCombination idx.existing_titles clean_title ps ∧
      idx._detect_combination clean_title =
        some (ps.map (fun p => idx.display_title (joinSpaces p))) := by
  obtain ⟨ps, hflat, hlen2, hcond⟩ := hex
  have hlenle : ps.length ≤ (pySplit clean_title).length := by
    have := parts_length_le_flatten ps (fun p hp => (hcond p hp).1)
    rwa [hflat] at this
  have hwords2 : 2 ≤ (pySplit clean_title).length := le_trans hlen2 hlenle
  have hmem : ps.map joinSpaces ∈ segsFuel idx.existing_titles clean_title
      (pySplit clean_title).length (pySplit clean_title) := by
    have hne : ps ≠ [] := by
      intro hcon; rw [hcon] at hlen2; simp at hlen2
    have := segsFuel_complete idx.existing_titles clean_title
      (pySplit clean_title).length ps hne (fun p hp => (hcond p hp).1)
      (fun p hp => ⟨(hcond p hp).2.1, (hcond p hp).2.2⟩) hlenle
    rwa [hflat] at this
  have hsome : ((segsFuel idx.existing_titles clean_title
      (pySplit clean_title).length (pySplit clean_title)).find?
      (fun g => decide (2 ≤ g.length))).isSome := by
    rw [List.find?_isSome]
    refine ⟨ps.map joinSpaces, hmem, ?_⟩
    simp only [List.length_map, decide_eq_true_eq]
    exact hlen2
  obtain ⟨g₀, hg₀⟩ := Option.isSome_iff_exists.mp hsome
  have hg₀mem := List.mem_of_find?_eq_some hg₀
  have hg₀pred := List.find?_some hg₀
  obtain ⟨ps₀, hflat₀, _, hnil₀, hmap₀, hcond₀⟩ :=
    segsFuel_sound idx.existing_titles clean_title _ _ g₀ hg₀mem
  refine ⟨ps₀, ⟨hflat₀, ?_, ?_⟩, ?_⟩
  · have : 2 ≤ g₀.length := by simpa using hg₀pred
    rwa [hmap₀, List.length_map] at this
  · intro p hp
    exact ⟨hnil₀ p hp, (hcond₀ p hp).1, (hcond₀ p hp).2⟩
  · unfold TitleIndex._detect_combination
    rw [if_neg (not_lt.mpr hwords2)]
    rw [hg₀]
    show some (List.map idx.display_title g₀) = _
    rw [hmap₀, List.map_map]
    rfl

theorem combReason_head (names : List Str) : (combReason names).head? = some 'T' := rfl

theorem spellingReason_head (d : Str) (s : ℚ) :
    (spellingReason d s).head? = some 'S' := rfl

/-- When rules 1-6 do not fire, the detector's result is decided by the
combination search and, failing that, the fuzzy candidate scan. -/
theorem detect_reaches_combination (rom mph : Str → Str) (idx : TitleIndex)
    (clean_title : Str)
    (h0 : clean_title ≠ [])
    (h1 : clean_title ∉ idx.existing_titles)
    (h2 : ¬(1 < (pySplit clean_title).length ∧
        idx.sorted_titles_map (sortedKey clean_title) ≠ []))
    (h3 : ¬(clean_title.length ≤ 8 ∧ clean_title.all isAsciiAlpha = true ∧
        idx.acronym_map clean_title ≠ []))
    (h4 : mph clean_title = [] ∨ ∀ m ∈ idx.phonetic_map (mph clean_title),
        m = clean_title ∨ fuzz_ratio clean_title m < 60)
    (h5 : idx._detect_periodicity_extension clean_title = none) :
    idx.detect_lexical_conflicts rom mph clean_title true =
      match idx._detect_combination clean_title with
      | some combination => ([combReason combination], 94)
      | none =>
          match (bestCandidate clean_title (idx._candidate_titles clean_title)).2 with
          | some best_match =>
              if best_match ≠ [] ∧
                  80 ≤ (bestCandidate clean_title (idx._candidate_titles clean_title)).1 then
                ([spellingReason (idx.display_title best_match)
                    (bestCandidate clean_title (idx._candidate_titles clean_title)).1],
                 (bestCandidate clean_title (idx._candidate_titles clean_title)).1)
              else ([], (bestCandidate clean_title (idx._candidate_titles clean_title)).1)
          | none => ([], (bestCandidate clean_title (idx._candidate_titles clean_title)).1)
      := by
  have hph : (if mph clean_title = [] then none
      else (idx.phonetic_map (mph clean_title)).find?
        (fun m => decide (m ≠ clean_title) &&
          decide ((60 : ℚ) ≤ fuzz_ratio clean_title m))) = (none : Option Str) := by
    rcases h4 with h4 | h4
    · rw [if_pos h4]
    · by_cases hm : mph clean_title = []
      · rw [if_pos hm]
      · rw [if_neg hm]
        rw [List.find?_eq_none]
        intro m hmmem hp
        rcases h4 m hmmem with rfl | hlt
        · simp at hp
        · simp only [Bool.and_eq_true, decide_eq_true_eq] at hp
          exact absurd hp.2 (not_le.mpr hlt)
  unfold TitleIndex.detect_lexical_conflicts
  dsimp only
  rw [show (if true = true then clean_title else sanitize_input rom clean_title) =
      clean_title from rfl]
  rw [if_neg h0]
  rw [if_neg h1]
  rw [if_neg h2]
  rw [if_neg h3]
  rw [hph]
  rw [h5]

/-- Claim C3: when the earlier rules (empty, exact match, word-order,
acronym, phonetic, periodicity) do not fire, the detector returns score
`94` with a reason listing the spans' canonical display titles joined by
" + " exactly when the token sequence can be partitioned into at least
two contiguous spans, each an existing corpus title different from the
full input; conversely, a combination-shaped reason with score 94 can
only arise from such a partition. -/
theorem c3_combination_rule (rom mph : Str → Str) (idx : TitleIndex) (clean_title : Str)
    (h0 : clean_title ≠ [])
    (h1 : clean_title ∉ idx.existing_titles)
    (h2 : ¬(1 < (pySplit clean_title).length ∧
        idx.sorted_titles_map (sortedKey clean_title) ≠ []))
    (h3 : ¬(clean_title.length ≤ 8 ∧ clean_title.all isAsciiAlpha = true ∧
        idx.acronym_map clean_title ≠ []))
    (h4 : mph clean_title = [] ∨ ∀ m ∈ idx.phonetic_map (mph clean_title),
        m = clean_title ∨ fuzz_ratio clean_title m < 60)
    (h5 : idx._detect_periodicity_extension clean_title = none) :
    ((∃ ps, IsCombination idx.existing_titles clean_title ps ∧
        idx.detect_lexical_conflicts rom mph clean_title true =
          ([combReason (ps.map (fun p => idx.display_title (joinSpaces p)))], 94)) ↔
      (∃ ps, IsCombination idx.existing_titles clean_title ps)) ∧
    (∀ names, (idx.detect_lexical_conflicts rom mph clean_title true).1
          = [combReason names] →
        ∃ ps, IsCombination idx.existing_titles clean_title ps) := by
  have hred := detect_reaches_combination rom mph idx clean_title h0 h1 h2 h3 h4 h5
  constructor
  · constructor
    · rintro ⟨ps, hc, _⟩
      exact ⟨ps, hc⟩
    · intro hex
      obtain ⟨ps₀, hc₀, heq₀⟩ := combination_of_exists idx clean_title hex
      refine ⟨ps₀, hc₀, ?_⟩
      rw [hred, heq₀]
  · intro names hnames
    by_contra hno
    have hnone : idx._detect_combination clean_title = none := by
      rcases hc : idx._detect_combination clean_title with _ | c
      · rfl
      · obtain ⟨ps, hcomb, _⟩ := combination_of_some idx clean_title c hc
        exact absurd ⟨ps, hcomb⟩ hno
    rw [hred, hnone] at hnames
    dsimp only at hnames
    rcases hb : (bestCandidate clean_title (idx._candidate_titles clean_title)).2
        with _ | m
    · rw [hb] at hnames
      dsimp only at hnames
      simp at hnames
    · rw [hb] at hnames
      dsimp only at hnames
      split at hnames
      · simp only [List.cons.injEq, and_true] at hnames
        have hhead := congrArg List.head? hnames
        rw [spellingReason_head, combReason_head] at hhead
        simp at hhead
      · simp at hnames

def c3MphW : Str → Str := fun _ => []

def c3IdxW : TitleIndex :=
  TitleIndex.extend id c3MphW TitleIndex.empty [s2l "Hindu", s2l "Indian Express"]

def c3CleanW : Str := s2l "hindu indian express"

def c3PsW : List (List Str) := [[s2l "hindu"], [s2l "indian", s2l "express"]]

theorem c3_witness :
    (c3CleanW ≠ []) ∧
    (c3CleanW ∉ c3IdxW.existing_titles) ∧
    (¬(1 < (pySplit c3CleanW).length ∧
        c3IdxW.sorted_titles_map (sortedKey c3CleanW) ≠ [])) ∧
    (¬(c3CleanW.length ≤ 8 ∧ c3CleanW.all isAsciiAlpha = true ∧
        c3IdxW.acronym_map c3CleanW ≠ [])) ∧
    (c3IdxW._detect_periodicity_extension c3CleanW = none) ∧
    (∃ ps, IsCombination c3IdxW.existing_titles c3CleanW ps ∧
      c3IdxW.detect_lexical_conflicts id c3MphW c3CleanW true =
        ([combReason (ps.map (fun p => c3IdxW.display_title (joinSpaces p)))], 94)) :=
  ⟨by decide, by decide, by decide, by decide, by decide,
   (c3_combination_rule id c3MphW c3IdxW c3CleanW (by decide) (by decide) (by decide)
       (by decide) (Or.inl rfl) (by decide)).1.mpr
     ⟨c3PsW, by decide, by decide, by decide⟩⟩
